import Mathlib

/-
Verification of the webpage-tts Chrome extension core against its design
specification.

The embedding below is a direct translation of the TypeScript sources:
  * chrome_extension/src/lib/text.ts   (normalizeText, chunkText)
  * chrome_extension/src/lib/audio.ts  (inspectWavHeader, HTMLAudioStrategy)
  * the runSpeak loop of the background service worker (epoch checks)
Strings are modelled as `List Char`, JS numbers used for durations/rates as
`ℚ` (every value the code manipulates here is an exact small rational), and
`number | null` ids as `Option Int` with JS truthiness made explicit.
-/

set_option maxHeartbeats 1600000

/-- The JS whitespace class matched by the regular expression `\s` (and by
`String.prototype.trim`): ASCII whitespace, NBSP, the Unicode space
separators, line/paragraph separators and the BOM. -/
def isJsWhitespace (c : Char) : Bool :=
  c == ' ' || c == '\t' || c == '\n' || c == '\r' ||
  c.toNat == 11 || c.toNat == 12 || c.toNat == 0xA0 || c.toNat == 0x1680 ||
  (0x2000 ≤ c.toNat && c.toNat ≤ 0x200A) ||
  c.toNat == 0x2028 || c.toNat == 0x2029 || c.toNat == 0x202F ||
  c.toNat == 0x205F || c.toNat == 0x3000 || c.toNat == 0xFEFF

/-- `text.replace(/\s+/g, " ")` (text.ts line 2): every maximal run of
whitespace characters is replaced by a single space. A whitespace character
is dropped when the next character is also whitespace, and the last
character of each run is replaced by `' '`. -/
def collapseWs : List Char → List Char
  | [] => []
  | [c] => if isJsWhitespace c then [' '] else [c]
  | c :: d :: rest =>
    if isJsWhitespace c then
      if isJsWhitespace d then collapseWs (d :: rest)
      else ' ' :: collapseWs (d :: rest)
    else c :: collapseWs (d :: rest)

/-- `String.prototype.trim`: strip leading and trailing whitespace. -/
def trimWs (l : List Char) : List Char :=
  ((l.dropWhile isJsWhitespace).reverse.dropWhile isJsWhitespace).reverse

/-- `normalizeText` (text.ts lines 1-3): collapse whitespace runs to single
spaces, then trim. -/
def normalizeText (t : List Char) : List Char :=
  trimWs (collapseWs t)

/-- The pattern `pat` occurs in `l` starting at index `i`. -/
def occursAt (pat l : List Char) (i : Nat) : Prop :=
  i + pat.length ≤ l.length ∧ (l.drop i).take pat.length = pat

instance instDecidableOccursAt (pat l : List Char) (i : Nat) :
    Decidable (occursAt pat l i) := by
  unfold occursAt; exact inferInstance

/-- Index of the last occurrence of `pat` in `l`, scanning candidate start
positions left to right and keeping the latest match. -/
def lastIdx (l pat : List Char) : Option Nat :=
  (List.range (l.length + 1)).foldl
    (fun acc i => if occursAt pat l i then some i else acc) none

/-- `String.prototype.lastIndexOf`: `-1` when the pattern does not occur,
otherwise the start index of its last occurrence. -/
def jsLastIndexOf (l pat : List Char) : Int :=
  match lastIdx l pat with
  | none => -1
  | some i => (i : Int)

/-- The `splitAt` computation of `chunkText` (text.ts lines 16-21): the
rightmost match, across the three sentence-punctuation-plus-space patterns,
of `slice.lastIndexOf(punct)` (`-1` when none occurs). -/
def splitAtOf (slice : List Char) : Int :=
  max (max (jsLastIndexOf slice ['.', ' ']) (jsLastIndexOf slice ['!', ' ']))
    (jsLastIndexOf slice ['?', ' '])

/-- One iteration of the `chunkText` loop (text.ts lines 12-32), expressed on
the suffix `rest = cleaned.slice(start)`: returns the relative cut offset
`end - start`.  `min maxLen rest.length` is the initial
`end = min(start + maxLen, length)` and `rest.take (min maxLen rest.length)`
is `slice`; if a punctuation-plus-space match exists at a positive index and
the window does not reach the end, cut right after the punctuation;
otherwise fall back to the last plain space at a positive index; otherwise
cut at the window end. -/
def chunkStep (rest : List Char) (maxLen : Nat) : Nat :=
  if 0 < splitAtOf (rest.take (min maxLen rest.length)) ∧
      min maxLen rest.length < rest.length then
    (splitAtOf (rest.take (min maxLen rest.length))).toNat + 1
  else if min maxLen rest.length < rest.length then
    if 0 < jsLastIndexOf (rest.take (min maxLen rest.length)) [' '] then
      (jsLastIndexOf (rest.take (min maxLen rest.length)) [' ']).toNat
    else min maxLen rest.length
  else min maxLen rest.length

/-- The `while (start < cleaned.length)` loop of `chunkText` (text.ts lines
12-33).  The fuel argument bounds the number of iterations; `chunkText`
passes `cleaned.length`, which suffices because every iteration with
`maxLen ≥ 1` consumes at least one character (for `maxLen = 0` the source
loop does not terminate). -/
def chunkLoop : Nat → List Char → Nat → List (List Char)
  | 0, _, _ => []
  | _ + 1, [], _ => []
  | fuel + 1, rest, maxLen =>
    let e := chunkStep rest maxLen
    let chunk := trimWs (rest.take e)
    (if chunk.isEmpty then [] else [chunk]) ++ chunkLoop fuel (rest.drop e) maxLen

/-- `chunkText` (text.ts lines 5-35). -/
def chunkText (text : List Char) (maxLen : Nat) : List (List Char) :=
  let cleaned := normalizeText text
  if cleaned.isEmpty then []
  else if cleaned.length ≤ maxLen then [cleaned]
  else chunkLoop cleaned.length cleaned maxLen

/-- Decomposition of a list into consecutive blocks of `L` elements (the last
block possibly shorter); fuel-driven like `chunkLoop`. -/
def blocksOfAux : Nat → Nat → List Char → List (List Char)
  | 0, _, _ => []
  | _ + 1, _, [] => []
  | fuel + 1, L, l => l.take L :: blocksOfAux fuel L (l.drop L)

/-- Consecutive `L`-sized blocks of a list. -/
def blocksOf (L : Nat) (l : List Char) : List (List Char) :=
  blocksOfAux l.length L l

/-- Non-whitespace character predicate, used to compare chunk output with the
normalized text modulo the spaces inserted or dropped at cut points. -/
def nonWs (c : Char) : Bool := !isJsWhitespace c

/-! ### Audio container inspector (audio.ts lines 1-58) -/

/-- Result record of `inspectWavHeader` (audio.ts lines 1-17); fields that the
source leaves `undefined` are `none`. -/
structure WavHeaderInfo where
  ok : Bool
  reason : Option String := none
  riff : Option String := none
  wave : Option String := none
  byteLength : Option Nat := none
  fmt : Option String := none
  fmtSize : Option Nat := none
  audioFormat : Option Nat := none
  channels : Option Nat := none
  sampleRate : Option Nat := none
  byteRate : Option Nat := none
  blockAlign : Option Nat := none
  bitsPerSample : Option Nat := none
  dataTag : Option String := none
  dataSize : Option Nat := none
deriving DecidableEq

/-- `readAscii` (audio.ts lines 19-25): read `len` bytes at `off` as a string
of 8-bit character codes.  A buffer is a byte list; reads reduce modulo 256
as `DataView.getUint8` does. -/
def readAscii (buf : List Nat) (off len : Nat) : String :=
  String.mk ((List.range len).map (fun i => Char.ofNat (buf.getD (off + i) 0 % 256)))

/-- `DataView.getUint16(off, true)`: little-endian 16-bit read. -/
def getUint16LE (buf : List Nat) (off : Nat) : Nat :=
  buf.getD off 0 % 256 + 256 * (buf.getD (off + 1) 0 % 256)

/-- `DataView.getUint32(off, true)`: little-endian 32-bit read. -/
def getUint32LE (buf : List Nat) (off : Nat) : Nat :=
  buf.getD off 0 % 256 + 256 * (buf.getD (off + 1) 0 % 256) +
    65536 * (buf.getD (off + 2) 0 % 256) + 16777216 * (buf.getD (off + 3) 0 % 256)

/-- `inspectWavHeader` (audio.ts lines 27-58).  Buffers shorter than 12 bytes
are rejected with reason "too short"; otherwise `ok` records whether the two
magic markers match, and the extended fixed-offset fields are read only when
the buffer has at least 44 bytes. -/
def inspectWavHeader (buf : List Nat) : WavHeaderInfo :=
  if buf.length < 12 then
    { ok := false, reason := some "too short", byteLength := some buf.length }
  else
    let riff := readAscii buf 0 4
    let wave := readAscii buf 8 4
    let info : WavHeaderInfo :=
      { ok := riff == "RIFF" && wave == "WAVE", riff := some riff,
        wave := some wave, byteLength := some buf.length }
    if buf.length < 44 then info
    else
      { info with
        fmt := some (readAscii buf 12 4), fmtSize := some (getUint32LE buf 16),
        audioFormat := some (getUint16LE buf 20), channels := some (getUint16LE buf 22),
        sampleRate := some (getUint32LE buf 24), byteRate := some (getUint32LE buf 28),
        blockAlign := some (getUint16LE buf 32), bitsPerSample := some (getUint16LE buf 34),
        dataTag := some (readAscii buf 36 4), dataSize := some (getUint32LE buf 40) }

/-- JS truthiness of an optional numeric field (`undefined`, `null` and `0`
are falsy). -/
def truthyN (x : Option Nat) : Bool :=
  match x with
  | none => false
  | some n => n != 0

/-- `x || dflt` for an optional numeric field: the value when truthy,
otherwise the default. -/
def orElseN (x : Option Nat) (dflt : Nat) : Nat :=
  match x with
  | none => dflt
  | some n => if n = 0 then dflt else n

/-- The per-chunk duration derivation of `runSpeak` (text.ts lines 622-637):
when sample rate, data size, channel count and bits-per-sample are all
present and nonzero, duration = (dataSize / ((bitsPerSample/8) * channels))
/ sampleRate; otherwise the duration stays unknown.  The arithmetic is on
small integers, so exact rationals model the JS numbers faithfully. -/
def deriveChunkDuration (m : WavHeaderInfo) : Option ℚ :=
  if truthyN m.sampleRate && truthyN m.dataSize && truthyN m.channels &&
      truthyN m.bitsPerSample then
    let bytesPerSample : ℚ := ((orElseN m.bitsPerSample 0 : ℚ) / 8) * (orElseN m.channels 1 : ℚ)
    let samples : ℚ := if bytesPerSample ≠ 0 then (orElseN m.dataSize 0 : ℚ) / bytesPerSample else 0
    if 0 < samples ∧ 0 < orElseN m.sampleRate 0 then
      some (samples / (orElseN m.sampleRate 1 : ℚ))
    else none
  else none

/-! ### Playback engine (audio.ts lines 152-369, class HTMLAudioStrategy) -/

/-- An element of `this.queue` (audio.ts lines 153-157). -/
structure QueueItem where
  buffer : List Nat
  playbackRate : ℚ
  durationSec : ℚ
deriving DecidableEq

/-- The currently rendering `HTMLAudioElement` (audio.ts line 158), reduced to
the attributes the engine reads and writes: its playback rate and its
current position in seconds. -/
structure CurrentUnit where
  playbackRate : ℚ
  currentTime : ℚ
deriving DecidableEq

/-- The mutable fields of `HTMLAudioStrategy` (audio.ts lines 153-166).
`requestId : Option Int` models `number | null`. -/
structure EngineState where
  queue : List QueueItem
  current : Option CurrentUnit
  paused : Bool
  playbackRate : ℚ
  totalDurationSec : ℚ
  playedDurationSec : ℚ
  currentDurationSec : ℚ
  requestId : Option Int
deriving DecidableEq

/-- The field initializers of `HTMLAudioStrategy` (audio.ts lines 153-166). -/
def initialEngine : EngineState :=
  { queue := [], current := none, paused := false, playbackRate := 1,
    totalDurationSec := 0, playedDurationSec := 0, currentDurationSec := 0,
    requestId := none }

/-- JS truthiness of a `number | null` request id (`null` and `0` falsy). -/
def idTruthy (x : Option Int) : Bool :=
  match x with
  | none => false
  | some n => n != 0

namespace HTMLAudioStrategy

/-- `stop` (audio.ts lines 311-326): empty the queue, discard the current
element, and zero all duration accumulators.  The `paused` flag is not
touched by the source. -/
def stop (s : EngineState) : EngineState :=
  { s with queue := [], current := none, totalDurationSec := 0,
           playedDurationSec := 0, currentDurationSec := 0 }

/-- `reset(requestId)` (audio.ts lines 195-202): `stop`, zero the
accumulators, and rebind to the given request id. -/
def reset (s : EngineState) (requestId : Option Int) : EngineState :=
  { stop s with requestId := requestId }

/-- The synchronous state effect of `playNext` (audio.ts lines 244-309): when
the queue is empty or playback is paused nothing changes; otherwise the head
unit is shifted out of the queue and becomes the current element, starting
at position 0 with the rate it carries. -/
def playNext (s : EngineState) : EngineState :=
  if s.queue.isEmpty || s.paused then s
  else
    match s.queue with
    | [] => s
    | item :: rest =>
      { s with queue := rest,
               current := some { playbackRate := item.playbackRate, currentTime := 0 },
               currentDurationSec := item.durationSec }

/-- The state string chosen by the idle branch of `playNext` (audio.ts lines
246-251): `paused` when paused, `done` when the total is positive and the
played total is within 0.05 s of it, otherwise `idle`. -/
def idleEmitState (s : EngineState) : String :=
  if s.paused then "paused"
  else if 0 < s.totalDurationSec ∧ s.totalDurationSec - 1/20 ≤ s.playedDurationSec then "done"
  else "idle"

/-- The progress state emitted by `playNext` when it has nothing to start
(audio.ts lines 245-253): an emission happens exactly when the queue is
empty or paused and there is no current element. -/
def playNextEmit (s : EngineState) : Option String :=
  if (s.queue.isEmpty || s.paused) && s.current.isNone then some (idleEmitState s)
  else none

/-- The epoch handling at the top of `enqueue` (audio.ts lines 211-215): a
truthy incoming id that differs from a truthy bound id forces a `reset`,
while a truthy incoming id against a falsy bound id merely rebinds. -/
def enqueueRebind (s : EngineState) (requestId : Option Int) : EngineState :=
  if idTruthy requestId && idTruthy s.requestId && requestId != s.requestId then
    reset s requestId
  else if idTruthy requestId then { s with requestId := requestId }
  else s

/-- Duration accounting of `enqueue` (audio.ts lines 216-218): a known
positive finite duration is added to `totalDurationSec`. -/
def addKnownDuration (s : EngineState) (durationSec : Option ℚ) : EngineState :=
  match durationSec with
  | some d => if 0 < d then { s with totalDurationSec := s.totalDurationSec + d } else s
  | none => s

/-- The queue push of `enqueue` (audio.ts lines 219-223): the unit is
appended with the resolved rate and `durationSec || 0`. -/
def appendUnit (s : EngineState) (buffer : List Nat) (rate : ℚ)
    (durationSec : Option ℚ) : EngineState :=
  { s with queue := s.queue ++
    [{ buffer := buffer, playbackRate := rate, durationSec := durationSec.getD 0 }] }

/-- The remainder of `enqueue` after the epoch handling (audio.ts lines
216-228): account the duration, append the unit, and start playback when
nothing is current and not paused. -/
def enqueueAdd (s : EngineState) (buffer : List Nat) (rate : ℚ)
    (durationSec : Option ℚ) : EngineState :=
  let s3 := appendUnit (addKnownDuration s durationSec) buffer rate durationSec
  if s3.current.isNone && !s3.paused then playNext s3 else s3

/-- `enqueue(audioBuffer, playbackRate, durationSec, requestId)` (audio.ts
lines 204-229): the rate defaults to the strategy-level rate (read before the
epoch handling, which never changes it), then the epoch handling runs,
then the unit is accounted and appended. -/
def enqueue (s : EngineState) (buffer : List Nat) (playbackRate : Option ℚ)
    (durationSec : Option ℚ) (requestId : Option Int) : EngineState :=
  enqueueAdd (enqueueRebind s requestId) buffer (playbackRate.getD s.playbackRate)
    durationSec

/-- `pause` (audio.ts lines 328-338): set the paused flag and suspend the
current element (which keeps its position). -/
def pause (s : EngineState) : EngineState :=
  { s with paused := true }

/-- `resume` (audio.ts lines 340-351): clear the paused flag; when a current
element exists its playback rate is overwritten with
`this.playbackRate || 1` and it is resumed in place; otherwise the head of
the queue is started via `playNext`. -/
def resume (s : EngineState) : EngineState :=
  let s1 := { s with paused := false }
  match s1.current with
  | some c =>
    { s1 with
      current := some { c with
        playbackRate := if s1.playbackRate = 0 then 1 else s1.playbackRate } }
  | none => playNext s1

/-- `setPlaybackRate(rate)` (audio.ts lines 353-368): ignore non-positive
rates (`ℚ` values are always finite); otherwise store the rate, rewrite the
rate of every queued unit, and apply it to the current element. -/
def setPlaybackRate (s : EngineState) (rate : ℚ) : EngineState :=
  if rate ≤ 0 then s
  else
    { s with playbackRate := rate,
             queue := s.queue.map (fun item => { item with playbackRate := rate }),
             current := s.current.map (fun c => { c with playbackRate := rate }) }

/-- The `onended` handler of the current element (audio.ts lines 271-283):
credit the rendered duration (the element's reported duration, falling back
to the stored chunk duration) to the played total, discard the element and
try the next unit. -/
def handleEnded (s : EngineState) (finished : ℚ) : EngineState :=
  let s1 := if 0 < finished then
      { s with playedDurationSec := s.playedDurationSec + finished } else s
  playNext { s1 with current := none }

/-- The played-seconds figure reported by `emitProgress` (audio.ts lines
177-178): the accumulated total plus the current element's position. -/
def reportedPlayedSec (s : EngineState) : ℚ :=
  s.playedDurationSec +
    (match s.current with
     | some c => c.currentTime
     | none => 0)

end HTMLAudioStrategy

/-! ### The runSpeak loop and its epoch checks (text.ts lines 594-662)

The per-chunk loop of `runSpeak` is modelled as a small-step system.  The
program counter marks the loop's suspension points: `checkFetch` is the top
of an iteration (the epoch check of line 595 happens on leaving it);
`fetching` is the `await fetchAudio` of line 612; `checkEnqueue` is the
epoch check of line 641; `sending` is the suspension inside
`await sendToOffscreen` (line 643) — `sendToOffscreen` awaits
`ensureOffscreen()` (lines 418-422) before `chrome.runtime.sendMessage`
actually delivers the enqueue.  Between any two orchestrator steps the
environment may run the `stop` handler (line 696) or a new `runSpeak`
(line 556), both of which increment `state.requestId`; aborting the
in-flight fetch (lines 571, 697) is the `abortFetch` step. -/

/-- Program counter of the `runSpeak` chunk loop. -/
inductive LoopPC where
  | checkFetch
  | fetching
  | checkEnqueue
  | sending
deriving DecidableEq

/-- One in-flight `runSpeak` invocation: the epoch it captured (`requestId`,
text.ts line 557), the index of the chunk it is working on, and the number
of chunks. -/
structure LoopState where
  myId : Nat
  idx : Nat
  total : Nat
  pc : LoopPC
deriving DecidableEq

/-- The orchestrator-side global state (text.ts lines 251-254) together with
the in-flight loop, `none` once the loop has returned or broken. -/
structure OrchState where
  requestId : Nat
  loop : Option LoopState
deriving DecidableEq

/-- An audio enqueue delivered to the playback engine: the epoch it is tagged
with and the orchestrator epoch current at the moment of delivery. -/
structure EnqueueEv where
  tag : Nat
  currentAtDelivery : Nat
deriving DecidableEq

/-- One orchestrator step: run the loop from its current suspension point to
the next one, returning the new state and any enqueue delivered. -/
def orchStep (s : OrchState) : OrchState × List EnqueueEv :=
  match s.loop with
  | none => (s, [])
  | some l =>
    match l.pc with
    | LoopPC.checkFetch =>
      if l.total ≤ l.idx then ({ s with loop := none }, [])
      else if l.myId ≠ s.requestId then ({ s with loop := none }, [])
      else ({ s with loop := some { l with pc := LoopPC.fetching } }, [])
    | LoopPC.fetching =>
      ({ s with loop := some { l with pc := LoopPC.checkEnqueue } }, [])
    | LoopPC.checkEnqueue =>
      if l.myId ≠ s.requestId then ({ s with loop := none }, [])
      else ({ s with loop := some { l with pc := LoopPC.sending } }, [])
    | LoopPC.sending =>
      ({ s with loop := some { l with pc := LoopPC.checkFetch, idx := l.idx + 1 } },
        [{ tag := l.myId, currentAtDelivery := s.requestId }])

/-- Steps of the interleaved system: the loop advances, or the environment
increments the epoch (`stop` handler or a new `speak`), or the in-flight
fetch is aborted and the loop breaks out of its `await fetchAudio`. -/
inductive SysStep where
  | orch
  | bump
  | abortFetch
deriving DecidableEq

/-- Apply one system step. -/
def sysStep : SysStep → OrchState → OrchState × List EnqueueEv
  | SysStep.orch, s => orchStep s
  | SysStep.bump, s => ({ s with requestId := s.requestId + 1 }, [])
  | SysStep.abortFetch, s =>
    match s.loop with
    | some l => if l.pc = LoopPC.fetching then ({ s with loop := none }, []) else (s, [])
    | none => (s, [])

/-- Run a schedule of steps, collecting every delivered enqueue in order. -/
def runSteps (s : OrchState) : List SysStep → OrchState × List EnqueueEv
  | [] => (s, [])
  | st :: rest =>
    let p := sysStep st s
    let q := runSteps p.1 rest
    (q.1, p.2 ++ q.2)

/-- The loop is stale and not already past its pre-enqueue epoch check: either
it has finished, or its captured epoch is strictly below the current one and
it is not suspended between the line-641 check and the actual send. -/
def SafeOrch (s : OrchState) : Prop :=
  s.loop = none ∨
    ∃ l, s.loop = some l ∧ l.myId < s.requestId ∧ l.pc ≠ LoopPC.sending

/-! ### Concrete test fixtures -/

/-- A 44-byte WAV header: "RIFF"/"WAVE" magic, PCM format tag, 1 channel,
sample rate 24000, byte rate 48000, block align 2, 16 bits per sample,
"data" tag, data size 48000 (little-endian throughout). -/
def sampleWav : List Nat :=
  [82, 73, 70, 70, 0, 0, 0, 0, 87, 65, 86, 69,
   102, 109, 116, 32, 16, 0, 0, 0, 1, 0, 1, 0,
   192, 93, 0, 0, 128, 187, 0, 0, 2, 0, 16, 0,
   100, 97, 116, 97, 128, 187, 0, 0]

/-- An engine mid-playback: one unit rendering at rate 1 (0.5 s in), one unit
still queued. -/
def engPlaying : EngineState :=
  { initialEngine with
    current := some { playbackRate := 1, currentTime := 1/2 },
    queue := [{ buffer := [3], playbackRate := 1, durationSec := 2 }],
    totalDurationSec := 3, requestId := some 1 }

/-- An engine bound to epoch 1 with one queued unit, paused. -/
def engBound : EngineState :=
  { initialEngine with
    requestId := some 1, paused := true,
    queue := [{ buffer := [9], playbackRate := 1, durationSec := 1 }],
    totalDurationSec := 1 }

/-- An engine that was fed one unit before any epoch was bound (request id
still null): the unit is rendering and its duration is in the total. -/
def engNullEpoch : EngineState :=
  HTMLAudioStrategy.enqueue initialEngine [0] (some 1) (some 1) none

/-! ### Lemmas about the segmenter -/

lemma trimWs_length_le (l : List Char) : (trimWs l).length ≤ l.length := by
  unfold trimWs
  calc ((l.dropWhile isJsWhitespace).reverse.dropWhile isJsWhitespace).reverse.length
      = ((l.dropWhile isJsWhitespace).reverse.dropWhile isJsWhitespace).length := by
        simp
    _ ≤ (l.dropWhile isJsWhitespace).reverse.length :=
        (List.dropWhile_sublist _).length_le
    _ = (l.dropWhile isJsWhitespace).length := by simp
    _ ≤ l.length := (List.dropWhile_sublist _).length_le

lemma lastIdx_foldl_inv (l pat : List Char) (idxs : List Nat) :
    ∀ (acc : Option Nat), (∀ j, acc = some j → occursAt pat l j) →
    ∀ j, idxs.foldl (fun a i => if occursAt pat l i then some i else a) acc = some j →
    occursAt pat l j := by
  induction idxs with
  | nil => intro acc hacc j h; exact hacc j h
  | cons i rest ih =>
    intro acc hacc j h
    refine ih _ ?_ j h
    intro j' hj'
    by_cases hi : occursAt pat l i
    · simp [hi] at hj'; exact hj' ▸ hi
    · simp [hi] at hj'; exact hacc j' hj'

lemma lastIdx_occursAt {l pat : List Char} {i : Nat} (h : lastIdx l pat = some i) :
    occursAt pat l i :=
  lastIdx_foldl_inv l pat _ none (by intro j hj; cases hj) i h

lemma lastIdx_eq_none {l pat : List Char} (h : ∀ i, ¬ occursAt pat l i) :
    lastIdx l pat = none := by
  unfold lastIdx
  generalize List.range (l.length + 1) = idxs
  induction idxs with
  | nil => rfl
  | cons i rest ih => simpa [h i] using ih

lemma jsLastIndexOf_cases (l pat : List Char) :
    jsLastIndexOf l pat = -1 ∨
      ∃ i, lastIdx l pat = some i ∧ jsLastIndexOf l pat = (i : Int) := by
  unfold jsLastIndexOf
  cases h : lastIdx l pat with
  | none => exact Or.inl rfl
  | some i => exact Or.inr ⟨i, rfl, rfl⟩

lemma jsLastIndexOf_bound {l pat : List Char} (h : 0 < jsLastIndexOf l pat) :
    (jsLastIndexOf l pat).toNat + pat.length ≤ l.length := by
  rcases jsLastIndexOf_cases l pat with hc | ⟨i, hi, hv⟩
  · rw [hc] at h; exact absurd h (by decide)
  · rw [hv]
    have := (lastIdx_occursAt hi).1
    simpa using this

lemma jsLastIndexOf_neg_of_wsfree {l pat : List Char}
    (hl : ∀ c ∈ l, isJsWhitespace c = false) (hp : ' ' ∈ pat) :
    jsLastIndexOf l pat = -1 := by
  unfold jsLastIndexOf
  rw [lastIdx_eq_none]
  intro i hocc
  have hmem : ' ' ∈ l := by
    have h1 : ' ' ∈ (l.drop i).take pat.length := by rw [hocc.2]; exact hp
    exact List.drop_subset i l (List.take_subset _ _ h1)
  have := hl ' ' hmem
  simp [isJsWhitespace] at this

lemma splitAtOf_bound {slice : List Char} (h : 0 < splitAtOf slice) :
    (splitAtOf slice).toNat + 2 ≤ slice.length := by
  unfold splitAtOf at h ⊢
  rcases max_choice (max (jsLastIndexOf slice ['.', ' ']) (jsLastIndexOf slice ['!', ' ']))
      (jsLastIndexOf slice ['?', ' ']) with hm | hm
  · rcases max_choice (jsLastIndexOf slice ['.', ' ']) (jsLastIndexOf slice ['!', ' ']) with
      hm' | hm'
    · rw [hm, hm'] at h ⊢
      simpa using jsLastIndexOf_bound h
    · rw [hm, hm'] at h ⊢
      simpa using jsLastIndexOf_bound h
  · rw [hm] at h ⊢
    simpa using jsLastIndexOf_bound h

lemma chunkStep_le (rest : List Char) (maxLen : Nat) :
    chunkStep rest maxLen ≤ min maxLen rest.length := by
  unfold chunkStep
  set e0 := min maxLen rest.length with he0
  have hslen : (rest.take e0).length = e0 := by
    rw [List.length_take]; omega
  by_cases h1 : 0 < splitAtOf (rest.take e0) ∧ e0 < rest.length
  · rw [if_pos h1]
    have := splitAtOf_bound h1.1
    rw [hslen] at this
    omega
  · rw [if_neg h1]
    by_cases h2 : e0 < rest.length
    · rw [if_pos h2]
      by_cases h3 : 0 < jsLastIndexOf (rest.take e0) [' ']
      · rw [if_pos h3]
        have := jsLastIndexOf_bound h3
        rw [hslen] at this
        simp at this
        omega
      · rw [if_neg h3]
    · rw [if_neg h2]

lemma chunkStep_pos (rest : List Char) (maxLen : Nat)
    (hr : rest ≠ []) (hm : 1 ≤ maxLen) : 1 ≤ chunkStep rest maxLen := by
  unfold chunkStep
  have hlen : 1 ≤ rest.length := List.length_pos.mpr hr
  set e0 := min maxLen rest.length with he0
  by_cases h1 : 0 < splitAtOf (rest.take e0) ∧ e0 < rest.length
  · rw [if_pos h1]; omega
  · rw [if_neg h1]
    by_cases h2 : e0 < rest.length
    · rw [if_pos h2]
      by_cases h3 : 0 < jsLastIndexOf (rest.take e0) [' ']
      · rw [if_pos h3]
        omega
      · rw [if_neg h3]; omega
    · rw [if_neg h2]; omega

lemma dropWhile_eq_self_of_none {p : Char → Bool} {l : List Char}
    (h : ∀ c ∈ l, p c = false) : l.dropWhile p = l := by
  cases l with
  | nil => rfl
  | cons c t => simp [List.dropWhile_cons, h c (by simp)]

lemma trimWs_eq_self_of_wsfree {l : List Char}
    (h : ∀ c ∈ l, isJsWhitespace c = false) : trimWs l = l := by
  unfold trimWs
  rw [dropWhile_eq_self_of_none h,
    dropWhile_eq_self_of_none (fun c hc => h c (List.mem_reverse.mp hc)),
    List.reverse_reverse]

lemma collapseWs_wsfree {t : List Char}
    (h : ∀ c ∈ t, isJsWhitespace c = false) : collapseWs t = t := by
  induction t with
  | nil => rfl
  | cons c rest ih =>
    cases rest with
    | nil => simp [collapseWs, h c (by simp)]
    | cons d rs =>
      have hc := h c (by simp)
      have ih' := ih (fun x hx => h x (by simp [hx]))
      simp [collapseWs, hc, ih']

lemma normalizeText_wsfree {t : List Char}
    (h : ∀ c ∈ t, isJsWhitespace c = false) : normalizeText t = t := by
  unfold normalizeText
  rw [collapseWs_wsfree h, trimWs_eq_self_of_wsfree h]

lemma collapseWs_all_ws {t : List Char}
    (h : ∀ c ∈ t, isJsWhitespace c = true) (hne : t ≠ []) : collapseWs t = [' '] := by
  induction t with
  | nil => exact absurd rfl hne
  | cons c rest ih =>
    cases rest with
    | nil => simp [collapseWs, h c (by simp)]
    | cons d rs =>
      have hc := h c (by simp)
      have hd := h d (by simp)
      have ih' := ih (fun x hx => h x (by simp [hx])) (by simp)
      simp [collapseWs, hc, hd, ih']

lemma normalizeText_all_ws {t : List Char}
    (h : ∀ c ∈ t, isJsWhitespace c = true) : normalizeText t = [] := by
  by_cases hne : t = []
  · subst hne; rfl
  · unfold normalizeText
    rw [collapseWs_all_ws h hne]
    decide

lemma chunkLoop_mem {maxLen fuel : Nat} {rest c : List Char}
    (hc : c ∈ chunkLoop fuel rest maxLen) : c.length ≤ maxLen ∧ c ≠ [] := by
  induction fuel generalizing rest with
  | zero => simp [chunkLoop] at hc
  | succ n ih =>
    cases rest with
    | nil => simp [chunkLoop] at hc
    | cons r rs =>
      simp only [chunkLoop] at hc
      rcases List.mem_append.mp hc with h | h
      · by_cases hemp : (trimWs ((r :: rs).take (chunkStep (r :: rs) maxLen))).isEmpty = true
        · rw [if_pos hemp] at h; cases h
        · rw [if_neg hemp] at h
          have hceq : c = trimWs ((r :: rs).take (chunkStep (r :: rs) maxLen)) := by
            simpa using h
          subst hceq
          refine ⟨?_, by simpa using hemp⟩
          calc (trimWs ((r :: rs).take (chunkStep (r :: rs) maxLen))).length
              ≤ ((r :: rs).take (chunkStep (r :: rs) maxLen)).length := trimWs_length_le _
            _ ≤ chunkStep (r :: rs) maxLen := by
                rw [List.length_take]; omega
            _ ≤ maxLen := le_trans (chunkStep_le _ _) (min_le_left _ _)
      · exact ih h

/-- C2: for positive `maxLen`, every chunk produced by `chunkText` has length
at most `maxLen` (so the "except" clause of the claim is vacuous) and is
non-empty, and empty or all-whitespace input produces no chunks. -/
theorem chunkText_chunk_bounds (T : List Char) (L : Nat) (_hL : 1 ≤ L) :
    (∀ c ∈ chunkText T L, c.length ≤ L ∧ c ≠ []) ∧
      ((∀ ch ∈ T, isJsWhitespace ch = true) → chunkText T L = []) := by
  constructor
  · intro c hc
    unfold chunkText at hc
    by_cases h1 : (normalizeText T).isEmpty = true
    · rw [if_pos h1] at hc; cases hc
    · rw [if_neg h1] at hc
      by_cases h2 : (normalizeText T).length ≤ L
      · rw [if_pos h2] at hc
        have hceq : c = normalizeText T := by simpa using hc
        subst hceq
        exact ⟨h2, by simpa using h1⟩
      · rw [if_neg h2] at hc
        exact chunkLoop_mem hc
  · intro hws
    unfold chunkText
    rw [normalizeText_all_ws hws]
    rfl

/-- Witness: `chunkText "ab cd" 2` contains the chunk `"ab"`, which is within
bounds, and all-whitespace input yields no chunks. -/
theorem chunkText_chunk_bounds_witness :
    ("ab".toList.length ≤ 2 ∧ "ab".toList ≠ []) ∧ chunkText "  \t ".toList 2 = [] :=
  ⟨(chunkText_chunk_bounds "ab cd".toList 2 (by decide)).1 "ab".toList (by decide),
   (chunkText_chunk_bounds "  \t ".toList 2 (by decide)).2 (by decide)⟩

lemma filter_dropWhile_ws (l : List Char) :
    (l.dropWhile isJsWhitespace).filter nonWs = l.filter nonWs := by
  induction l with
  | nil => rfl
  | cons c t ih =>
    by_cases hc : isJsWhitespace c = true
    · rw [List.dropWhile_cons, if_pos hc, ih, List.filter_cons,
        if_neg (by simp [nonWs, hc])]
    · rw [List.dropWhile_cons, if_neg hc]

lemma filter_trimWs (l : List Char) : (trimWs l).filter nonWs = l.filter nonWs := by
  unfold trimWs
  rw [List.filter_reverse, filter_dropWhile_ws, List.filter_reverse,
    List.reverse_reverse, filter_dropWhile_ws]

lemma filter_eq_nil_of_trim_empty {l : List Char}
    (h : (trimWs l).isEmpty = true) : l.filter nonWs = [] := by
  rw [← filter_trimWs, List.isEmpty_iff.mp h]
  rfl

lemma chunkLoop_join_filter {maxLen : Nat} (hL : 1 ≤ maxLen) :
    ∀ (fuel : Nat) (rest : List Char), rest.length ≤ fuel →
      ((chunkLoop fuel rest maxLen).flatten).filter nonWs = rest.filter nonWs := by
  intro fuel
  induction fuel with
  | zero =>
    intro rest h
    have : rest = [] := List.length_eq_zero.mp (Nat.le_zero.mp h)
    subst this; rfl
  | succ n ih =>
    intro rest hlen
    cases rest with
    | nil => rfl
    | cons r rs =>
      simp only [chunkLoop]
      have he1 : 1 ≤ chunkStep (r :: rs) maxLen := chunkStep_pos _ _ (by simp) hL
      have hdrop : ((r :: rs).drop (chunkStep (r :: rs) maxLen)).length ≤ n := by
        rw [List.length_drop]
        have := hlen
        simp only [List.length_cons] at this ⊢
        omega
      rw [List.flatten_append, List.filter_append, ih _ hdrop]
      have hleft :
          ((if (trimWs ((r :: rs).take (chunkStep (r :: rs) maxLen))).isEmpty then []
            else [trimWs ((r :: rs).take (chunkStep (r :: rs) maxLen))]).flatten).filter nonWs =
          ((r :: rs).take (chunkStep (r :: rs) maxLen)).filter nonWs := by
        by_cases hemp : (trimWs ((r :: rs).take (chunkStep (r :: rs) maxLen))).isEmpty = true
        · rw [if_pos hemp, filter_eq_nil_of_trim_empty hemp]
          rfl
        · rw [if_neg hemp]
          simp only [List.flatten_cons, List.flatten_nil, List.append_nil]
          exact filter_trimWs _
      rw [hleft, ← List.filter_append, List.take_append_drop]

/-- C3 counterexample: joining the chunks of `"aaaa"` at `maxLen = 3` with
single spaces yields `"aaa a"`, not the normalized input `"aaaa"` — the cut
fell inside a whitespace-free run and rejoining inserted a space. -/
theorem chunkText_join_counterexample :
    List.intercalate [' '] (chunkText "aaaa".toList 3) = "aaa a".toList ∧
      normalizeText "aaaa".toList = "aaaa".toList ∧
      List.intercalate [' '] (chunkText "aaaa".toList 3) ≠ normalizeText "aaaa".toList := by
  refine ⟨by decide, by decide, by decide⟩

lemma filter_intercalate_space (xs : List (List Char)) :
    (List.intercalate [' '] xs).filter nonWs = (xs.flatten).filter nonWs := by
  induction xs with
  | nil => rfl
  | cons a t ih =>
    cases t with
    | nil => simp [List.intercalate]
    | cons b t2 =>
      have hstep : List.intercalate [' '] (a :: b :: t2) =
          a ++ ([' '] ++ List.intercalate [' '] (b :: t2)) := by
        rw [List.intercalate, List.intersperse_cons₂, List.flatten_cons, List.flatten_cons]
        rfl
      rw [hstep, List.filter_append, List.filter_append]
      have hsep : ([' '] : List Char).filter nonWs = [] := by decide
      rw [hsep, List.nil_append, ih, List.flatten_cons, List.filter_append,
        List.flatten_cons, List.filter_append, List.flatten_cons, List.filter_append]

/-- C3 amended: for positive `maxLen`, the space-joined chunks agree with the
normalized text on every non-whitespace character, in order (equality after
deleting spaces); exact equality fails only where a window is cut inside a
whitespace-free run. -/
theorem chunkText_join_filter (T : List Char) (L : Nat) (hL : 1 ≤ L) :
    (List.intercalate [' '] (chunkText T L)).filter nonWs =
      (normalizeText T).filter nonWs := by
  rw [filter_intercalate_space]
  unfold chunkText
  by_cases h1 : (normalizeText T).isEmpty = true
  · rw [if_pos h1, List.isEmpty_iff.mp h1]
    rfl
  · rw [if_neg h1]
    by_cases h2 : (normalizeText T).length ≤ L
    · rw [if_pos h2]
      simp
    · rw [if_neg h2]
      exact chunkLoop_join_filter hL _ _ le_rfl

/-- Witness for the amended C3 at a concrete input. -/
theorem chunkText_join_filter_witness :
    (List.intercalate [' '] (chunkText "ab cd".toList 2)).filter nonWs =
      (normalizeText "ab cd".toList).filter nonWs :=
  chunkText_join_filter "ab cd".toList 2 (by decide)

lemma chunkStep_wsfree {rest : List Char} {maxLen : Nat}
    (h : ∀ c ∈ rest, isJsWhitespace c = false) :
    chunkStep rest maxLen = min maxLen rest.length := by
  unfold chunkStep
  have hsl : ∀ c ∈ rest.take (min maxLen rest.length), isJsWhitespace c = false :=
    fun c hc => h c (List.take_subset _ _ hc)
  have h1 : splitAtOf (rest.take (min maxLen rest.length)) = -1 := by
    unfold splitAtOf
    rw [jsLastIndexOf_neg_of_wsfree hsl (by decide),
      jsLastIndexOf_neg_of_wsfree hsl (by decide),
      jsLastIndexOf_neg_of_wsfree hsl (by decide)]
    decide
  have h2 : jsLastIndexOf (rest.take (min maxLen rest.length)) [' '] = -1 :=
    jsLastIndexOf_neg_of_wsfree hsl (by decide)
  rw [h1, h2]
  simp

lemma chunkLoop_wsfree {maxLen : Nat} (hL : 1 ≤ maxLen) :
    ∀ (fuel : Nat) (rest : List Char), (∀ c ∈ rest, isJsWhitespace c = false) →
      chunkLoop fuel rest maxLen = blocksOfAux fuel maxLen rest := by
  intro fuel
  induction fuel with
  | zero => intro rest _; rfl
  | succ n ih =>
    intro rest h
    cases rest with
    | nil => rfl
    | cons r rs =>
      simp only [chunkLoop, blocksOfAux]
      rw [chunkStep_wsfree h]
      have htake : ∀ c ∈ (r :: rs).take (min maxLen (r :: rs).length),
          isJsWhitespace c = false :=
        fun c hc => h c (List.take_subset _ _ hc)
      rw [trimWs_eq_self_of_wsfree htake]
      have hne : ((r :: rs).take (min maxLen (r :: rs).length)).isEmpty = false := by
        rw [List.isEmpty_eq_false, ← List.length_pos, List.length_take]
        simp only [List.length_cons]
        omega
      rw [if_neg (by rw [hne]; exact Bool.false_ne_true)]
      have htake_eq : (r :: rs).take (min maxLen (r :: rs).length) = (r :: rs).take maxLen := by
        by_cases hc : maxLen ≤ (r :: rs).length
        · rw [min_eq_left hc]
        · push_neg at hc
          rw [min_eq_right (le_of_lt hc), List.take_length,
            List.take_of_length_le (le_of_lt hc)]
      have hdrop_eq : (r :: rs).drop (min maxLen (r :: rs).length) = (r :: rs).drop maxLen := by
        by_cases hc : maxLen ≤ (r :: rs).length
        · rw [min_eq_left hc]
        · push_neg at hc
          rw [min_eq_right (le_of_lt hc), List.drop_length,
            List.drop_eq_nil_of_le (le_of_lt hc)]
      rw [htake_eq, hdrop_eq, ih _ (fun c hc => h c (List.drop_subset _ _ hc))]
      rfl

/-- C4 counterexample: a whitespace-free run of length 4 with `maxLen = 3` is
split into `["aaa", "a"]`, not emitted whole as a single chunk. -/
theorem chunkText_long_run_counterexample :
    chunkText "aaaa".toList 3 = ["aaa".toList, "a".toList] ∧
      chunkText "aaaa".toList 3 ≠ ["aaaa".toList] := by
  refine ⟨by decide, by decide⟩

/-- C4 amended: a normalized input that is a single whitespace-free run longer
than a positive `maxLen` is not kept whole: `chunkText` cuts it at exactly
`maxLen` repeatedly, returning its consecutive `maxLen`-sized blocks. -/
theorem chunkText_long_run_split (w : List Char) (L : Nat) (hL : 1 ≤ L)
    (hws : ∀ c ∈ w, isJsWhitespace c = false) (hlen : L < w.length) :
    chunkText w L = blocksOf L w := by
  unfold chunkText
  rw [normalizeText_wsfree hws]
  have hne : w.isEmpty = false := by
    rw [List.isEmpty_eq_false, ← List.length_pos]
    omega
  rw [if_neg (by simp [hne]), if_neg (by omega)]
  exact chunkLoop_wsfree hL w.length w hws

/-- Witness for the amended C4 at a concrete input. -/
theorem chunkText_long_run_split_witness :
    chunkText "abcd".toList 3 = blocksOf 3 "abcd".toList :=
  chunkText_long_run_split "abcd".toList 3 (by decide) (by decide) (by decide)

/-- Sanity: preferred sentence-boundary split of the segmenter. -/
example : chunkText "one. two three".toList 9 =
    ["one.".toList, "two".toList, "three".toList] := by decide

/-! ### Claims about the audio container inspector -/

/-- C6 counterexample: a 12-byte zero buffer has wrong magic markers at
offsets 0 and 8; `inspectWavHeader` reports `ok = false` but attaches no
reason string (the claim asserts a reason accompanies every rejection). -/
theorem inspectWavHeader_reason_counterexample :
    (inspectWavHeader (List.replicate 12 0)).ok = false ∧
      (inspectWavHeader (List.replicate 12 0)).reason = none := by
  exact ⟨by decide, by decide⟩

/-- C6 amended: buffers shorter than 12 bytes are rejected with reason
"too short"; buffers of 12 bytes or more never carry a reason string and
their `ok` flag records exactly whether the two magic markers match; buffers
of 12 to 43 bytes expose only the basic fields and no extended ones; and the
concrete valid 44-byte header with sampleRate 24000, 1 channel, 16 bits per
sample and dataSize 48000 derives a duration of exactly 1 second. -/
theorem inspectWavHeader_spec :
    (∀ buf : List Nat, buf.length < 12 →
      (inspectWavHeader buf).ok = false ∧
        (inspectWavHeader buf).reason = some "too short") ∧
    (∀ buf : List Nat, 12 ≤ buf.length →
      (inspectWavHeader buf).reason = none ∧
        ((inspectWavHeader buf).ok = true ↔
          readAscii buf 0 4 = "RIFF" ∧ readAscii buf 8 4 = "WAVE")) ∧
    (∀ buf : List Nat, 12 ≤ buf.length → buf.length ≤ 43 →
      (inspectWavHeader buf).fmt = none ∧ (inspectWavHeader buf).channels = none ∧
        (inspectWavHeader buf).sampleRate = none ∧
        (inspectWavHeader buf).bitsPerSample = none ∧
        (inspectWavHeader buf).dataSize = none ∧
        (inspectWavHeader buf).riff = some (readAscii buf 0 4) ∧
        (inspectWavHeader buf).byteLength = some buf.length) ∧
    deriveChunkDuration (inspectWavHeader sampleWav) = some 1 := by
  refine ⟨?_, ?_, ?_, ?_⟩
  · intro buf h
    simp only [inspectWavHeader]
    rw [if_pos h]
    exact ⟨rfl, rfl⟩
  · intro buf h
    simp only [inspectWavHeader]
    rw [if_neg (by omega)]
    by_cases h44 : buf.length < 44
    · rw [if_pos h44]
      exact ⟨rfl, by simp [Bool.and_eq_true, beq_iff_eq]⟩
    · rw [if_neg h44]
      exact ⟨rfl, by simp [Bool.and_eq_true, beq_iff_eq]⟩
  · intro buf h12 h43
    simp only [inspectWavHeader]
    rw [if_neg (by omega), if_pos (by omega)]
    exact ⟨rfl, rfl, rfl, rfl, rfl, rfl, rfl⟩
  · have h : inspectWavHeader sampleWav =
        { ok := true, riff := some "RIFF", wave := some "WAVE", byteLength := some 44,
          fmt := some "fmt ", fmtSize := some 16, audioFormat := some 1, channels := some 1,
          sampleRate := some 24000, byteRate := some 48000, blockAlign := some 2,
          bitsPerSample := some 16, dataTag := some "data", dataSize := some 48000 } := by
      decide
    rw [h]
    simp only [deriveChunkDuration, truthyN, orElseN]
    norm_num

/-- Witness: the 8-byte buffer of the spec example is rejected as too
short. -/
theorem inspectWavHeader_spec_witness :
    (inspectWavHeader (List.replicate 8 0)).ok = false ∧
      (inspectWavHeader (List.replicate 8 0)).reason = some "too short" :=
  inspectWavHeader_spec.1 (List.replicate 8 0) (by decide)

/-! ### Claims about the playback engine -/

open HTMLAudioStrategy


/-! ### Claims about the playback engine -/

open HTMLAudioStrategy

lemma playNext_fields (s : EngineState) :
    (playNext s).requestId = s.requestId ∧
    (playNext s).totalDurationSec = s.totalDurationSec ∧
    (playNext s).playedDurationSec = s.playedDurationSec ∧
    (playNext s).paused = s.paused ∧
    (playNext s).playbackRate = s.playbackRate := by
  unfold playNext
  by_cases h : (s.queue.isEmpty || s.paused) = true
  · rw [if_pos h]
    exact ⟨rfl, rfl, rfl, rfl, rfl⟩
  · rw [if_neg h]
    cases hq : s.queue with
    | nil => exact ⟨rfl, rfl, rfl, rfl, rfl⟩
    | cons item rest => exact ⟨rfl, rfl, rfl, rfl, rfl⟩

lemma playNext_queue_sub (s : EngineState) :
    ∀ it ∈ (playNext s).queue, it ∈ s.queue := by
  unfold playNext
  by_cases h : (s.queue.isEmpty || s.paused) = true
  · rw [if_pos h]
    exact fun _ hit => hit
  · rw [if_neg h]
    cases hq : s.queue with
    | nil =>
      intro it hit
      have hit' : it ∈ s.queue := hit
      rw [hq] at hit'
      exact hit'
    | cons item rest => exact fun it hit => List.mem_cons_of_mem item hit

lemma addKnownDuration_fields (s : EngineState) (d : Option ℚ) :
    (addKnownDuration s d).queue = s.queue ∧
    (addKnownDuration s d).current = s.current ∧
    (addKnownDuration s d).paused = s.paused ∧
    (addKnownDuration s d).requestId = s.requestId ∧
    (addKnownDuration s d).playedDurationSec = s.playedDurationSec ∧
    (addKnownDuration s d).playbackRate = s.playbackRate := by
  cases d with
  | none => exact ⟨rfl, rfl, rfl, rfl, rfl, rfl⟩
  | some dv =>
    simp only [addKnownDuration]
    by_cases h : 0 < dv
    · rw [if_pos h]
      exact ⟨rfl, rfl, rfl, rfl, rfl, rfl⟩
    · rw [if_neg h]
      exact ⟨rfl, rfl, rfl, rfl, rfl, rfl⟩

lemma enqueueAdd_requestId (s : EngineState) (buf : List Nat) (rate : ℚ) (d : Option ℚ) :
    (enqueueAdd s buf rate d).requestId = s.requestId := by
  simp only [enqueueAdd]
  split
  · rw [(playNext_fields _).1]
    exact (addKnownDuration_fields s d).2.2.2.1
  · exact (addKnownDuration_fields s d).2.2.2.1

lemma enqueueAdd_queue_of_empty (s : EngineState) (buf : List Nat) (rate : ℚ)
    (d : Option ℚ) (hq : s.queue = []) :
    ∀ it ∈ (enqueueAdd s buf rate d).queue,
      it = { buffer := buf, playbackRate := rate, durationSec := d.getD 0 } := by
  simp only [enqueueAdd]
  have hq3 : (appendUnit (addKnownDuration s d) buf rate d).queue =
      [{ buffer := buf, playbackRate := rate, durationSec := d.getD 0 }] := by
    show (addKnownDuration s d).queue ++ [_] = _
    rw [(addKnownDuration_fields s d).1, hq]
    rfl
  split
  · intro it hit
    have := playNext_queue_sub _ it hit
    rw [hq3] at this
    simpa using this
  · intro it hit
    rw [hq3] at hit
    simpa using hit

lemma enqueueRebind_of_truthy_ne {s : EngineState} {e : Int} (he : e ≠ 0)
    (ht : idTruthy s.requestId = true) (hne : s.requestId ≠ some e) :
    enqueueRebind s (some e) = reset s (some e) := by
  have h1 : idTruthy (some e) = true := by simp [idTruthy, he]
  have h2 : ((some e : Option Int) != s.requestId) = true := by
    rw [bne_iff_ne]
    exact fun h => hne h.symm
  unfold enqueueRebind
  simp [h1, ht, h2]

lemma enqueueRebind_self (s : EngineState) {e : Int} (he : e ≠ 0)
    (hs : s.requestId = some e) : enqueueRebind s (some e) = s := by
  have h1 : idTruthy (some e) = true := by simp [idTruthy, he]
  cases s with
  | mk q c p r t pl cd rid =>
    simp only at hs
    subst hs
    unfold enqueueRebind
    simp [h1]

/-- C5 counterexample: feed one unit with a null request id (the engine id
stays null and the unit starts rendering), then enqueue a unit tagged with
epoch 1.  The epochs differ, yet no reset happens: the first unit keeps
rendering, its duration stays in the total (2, not 1), and the outcome
differs from the reset-first outcome the claim requires. -/
theorem enqueue_epoch_counterexample :
    engNullEpoch.requestId = none ∧
    (enqueue engNullEpoch [1] (some 1) (some 1) (some 1)).requestId = some 1 ∧
    (enqueue engNullEpoch [1] (some 1) (some 1) (some 1)).totalDurationSec = 2 ∧
    (enqueue engNullEpoch [1] (some 1) (some 1) (some 1)).current =
      some { playbackRate := 1, currentTime := 0 } ∧
    enqueue engNullEpoch [1] (some 1) (some 1) (some 1) ≠
      enqueue (reset engNullEpoch (some 1)) [1] (some 1) (some 1) (some 1) := by
  refine ⟨?_, ?_, ?_, ?_, ?_⟩
  · simp only [engNullEpoch, enqueue, enqueueRebind, enqueueAdd, addKnownDuration,
      appendUnit, reset, stop, playNext, initialEngine, idTruthy]
    norm_num
  · simp only [engNullEpoch, enqueue, enqueueRebind, enqueueAdd, addKnownDuration,
      appendUnit, reset, stop, playNext, initialEngine, idTruthy]
    norm_num
  · simp only [engNullEpoch, enqueue, enqueueRebind, enqueueAdd, addKnownDuration,
      appendUnit, reset, stop, playNext, initialEngine, idTruthy]
    norm_num
  · simp only [engNullEpoch, enqueue, enqueueRebind, enqueueAdd, addKnownDuration,
      appendUnit, reset, stop, playNext, initialEngine, idTruthy]
    norm_num
  · intro h
    have := congrArg EngineState.totalDurationSec h
    simp only [engNullEpoch, enqueue, enqueueRebind, enqueueAdd, addKnownDuration,
      appendUnit, reset, stop, playNext, initialEngine, idTruthy] at this
    norm_num at this

/-- C5 amended: when the incoming epoch and the engine's bound epoch are both
truthy (non-null, nonzero) and differ, `enqueue` behaves exactly as a
`reset` to the incoming epoch followed by the same enqueue: the engine
rebinds to the incoming epoch and afterwards the queue holds nothing but the
newly added unit.  (When the bound epoch is falsy the source merely rebinds
without resetting, as the counterexample shows.) -/
theorem enqueue_epoch_reset (s : EngineState) (buf : List Nat) (r d : Option ℚ)
    (e : Int) (he : e ≠ 0) (ht : idTruthy s.requestId = true)
    (hne : s.requestId ≠ some e) :
    enqueue s buf r d (some e) = enqueue (reset s (some e)) buf r d (some e) ∧
    (enqueue s buf r d (some e)).requestId = some e ∧
    ∀ it ∈ (enqueue s buf r d (some e)).queue,
      it = { buffer := buf, playbackRate := r.getD s.playbackRate,
             durationSec := d.getD 0 } := by
  have hmain : enqueue s buf r d (some e) = enqueue (reset s (some e)) buf r d (some e) := by
    unfold enqueue
    rw [enqueueRebind_of_truthy_ne he ht hne, enqueueRebind_self (reset s (some e)) he rfl]
    rfl
  refine ⟨hmain, ?_, ?_⟩
  · rw [hmain]
    unfold enqueue
    rw [enqueueRebind_self (reset s (some e)) he rfl, enqueueAdd_requestId]
    rfl
  · rw [hmain]
    unfold enqueue
    rw [enqueueRebind_self (reset s (some e)) he rfl]
    exact enqueueAdd_queue_of_empty _ _ _ _ rfl

/-- Witness: on an engine bound to epoch 1, an enqueue tagged 2 resets first
and rebinds to epoch 2. -/
theorem enqueue_epoch_reset_witness :
    enqueue engBound [2] (some 1) (some 1) (some 2) =
      enqueue (reset engBound (some 2)) [2] (some 1) (some 1) (some 2) ∧
    (enqueue engBound [2] (some 1) (some 1) (some 2)).requestId = some 2 :=
  ⟨(enqueue_epoch_reset engBound [2] (some 1) (some 1) 2 (by decide) (by decide)
      (by decide)).1,
   (enqueue_epoch_reset engBound [2] (some 1) (some 1) 2 (by decide) (by decide)
      (by decide)).2.1⟩

/-- C7 counterexample: the freshly constructed engine has an empty queue, no
current element, is not paused, and satisfies playedSec ≥ totalSec − 0.05
(0 ≥ −0.05), yet the idle branch of `playNext` reports "idle", not "done":
the source additionally requires `totalDurationSec > 0`. -/
theorem playNext_done_counterexample :
    initialEngine.queue = [] ∧ initialEngine.current = none ∧
    initialEngine.paused = false ∧
    initialEngine.totalDurationSec - 1/20 ≤ initialEngine.playedDurationSec ∧
    playNextEmit initialEngine = some "idle" ∧
    playNextEmit initialEngine ≠ some "done" := by
  refine ⟨rfl, rfl, rfl, by norm_num [initialEngine], ?_, ?_⟩
  · simp only [playNextEmit, idleEmitState, initialEngine]
    norm_num
  · simp only [playNextEmit, idleEmitState, initialEngine]
    norm_num
    decide

/-- C7 amended: with the queue and current element empty and playback not
paused, the idle branch of `playNext` reports "done" exactly when the total
is positive and the played total is within 0.05 s of it; the extra
`0 < totalSec` conjunct is what the claim as stated omits. -/
theorem playNext_done_iff (s : EngineState) (hq : s.queue = [])
    (hc : s.current = none) (hp : s.paused = false) :
    playNextEmit s = some "done" ↔
      0 < s.totalDurationSec ∧ s.totalDurationSec - 1/20 ≤ s.playedDurationSec := by
  simp only [playNextEmit, idleEmitState, hq, hc, hp, List.isEmpty_nil,
    Option.isNone_none, Bool.or_false, Bool.and_self, if_true, if_false,
    Bool.false_eq_true]
  split_ifs with h
  · exact iff_of_true rfl h
  · constructor
    · intro habs
      exact absurd habs (by decide)
    · intro hcontra
      exact absurd hcontra h

/-- Witness: with total 1 s fully played, the idle branch reports "done". -/
theorem playNext_done_iff_witness :
    playNextEmit { initialEngine with totalDurationSec := 1, playedDurationSec := 1 } =
      some "done" :=
  (playNext_done_iff { initialEngine with totalDurationSec := 1, playedDurationSec := 1 }
    rfl rfl rfl).mpr ⟨by norm_num, by norm_num⟩

/-- C8: pausing and then resuming never changes the accumulated played or
total duration — neither does each operation alone — and the reported
played-seconds figure (accumulator plus current element position) is
likewise preserved across pause-resume. -/
theorem pause_resume_preserves (s : EngineState) :
    (resume (pause s)).playedDurationSec = s.playedDurationSec ∧
    (resume (pause s)).totalDurationSec = s.totalDurationSec ∧
    reportedPlayedSec (resume (pause s)) = reportedPlayedSec s ∧
    (pause s).playedDurationSec = s.playedDurationSec ∧
    (pause s).totalDurationSec = s.totalDurationSec ∧
    (resume s).playedDurationSec = s.playedDurationSec ∧
    (resume s).totalDurationSec = s.totalDurationSec := by
  have hres : ∀ t : EngineState, (resume t).playedDurationSec = t.playedDurationSec ∧
      (resume t).totalDurationSec = t.totalDurationSec := by
    intro t
    cases t with
    | mk q cur p rate tot played curd rid =>
      cases cur with
      | some c => exact ⟨rfl, rfl⟩
      | none => exact ⟨(playNext_fields _).2.2.1, (playNext_fields _).2.1⟩
  have hrep : reportedPlayedSec (resume (pause s)) = reportedPlayedSec s := by
    cases s with
    | mk q cur p rate tot played curd rid =>
      cases cur with
      | some c => rfl
      | none =>
        cases q with
        | nil => rfl
        | cons a as => rfl
  exact ⟨(hres (pause s)).1, (hres (pause s)).2, hrep, rfl, rfl, (hres s).1, (hres s).2⟩

/-- C9: a positive rate is stored and applied to every queued unit and to the
current element (whose elapsed position is untouched), while the played and
total accumulators are unchanged. -/
theorem setPlaybackRate_spec (s : EngineState) (r : ℚ) (hr : 0 < r) :
    (∀ it ∈ (setPlaybackRate s r).queue, it.playbackRate = r) ∧
    (∀ c, s.current = some c →
      (setPlaybackRate s r).current = some { c with playbackRate := r }) ∧
    (setPlaybackRate s r).playedDurationSec = s.playedDurationSec ∧
    (setPlaybackRate s r).totalDurationSec = s.totalDurationSec := by
  have hif : ¬ (r ≤ 0) := not_le.mpr hr
  unfold setPlaybackRate
  rw [if_neg hif]
  refine ⟨?_, ?_, rfl, rfl⟩
  · intro it hit
    simp only [List.mem_map] at hit
    obtain ⟨a, _, ha⟩ := hit
    rw [← ha]
  · intro c hc
    rw [hc]
    rfl

/-- Witness: the spec scenario — rate 1.5 mid-playback with one unit queued:
the current element is re-rated in place and the totals are unchanged. -/
theorem setPlaybackRate_spec_witness :
    (setPlaybackRate engPlaying (3/2)).current =
      some { playbackRate := 3/2, currentTime := 1/2 } ∧
    (setPlaybackRate engPlaying (3/2)).totalDurationSec = 3 := by
  constructor
  · exact (setPlaybackRate_spec engPlaying (3/2) (by norm_num)).2.1
      { playbackRate := 1, currentTime := 1/2 } rfl
  · exact (setPlaybackRate_spec engPlaying (3/2) (by norm_num)).2.2.2

/-- C10 (implicit claim): `resume` overwrites the current element's rate with
the strategy-level rate (`this.playbackRate || 1`), discarding the per-unit
rate; in particular a unit enqueued at a rate other than 1, paused and
resumed with no intervening `setPlaybackRate`, continues at rate 1. -/
theorem resume_overwrites_rate (s : EngineState) (c : CurrentUnit)
    (hc : s.current = some c) :
    (resume s).current =
      some { c with playbackRate := if s.playbackRate = 0 then 1 else s.playbackRate } ∧
    (s.playbackRate = 1 → (resume s).current = some { c with playbackRate := 1 }) := by
  cases s with
  | mk q cur p rate tot played curd rid =>
    simp only at hc
    subst hc
    constructor
    · rfl
    · intro h1
      simp only at h1
      subst h1
      simp only [resume]
      norm_num

/-- Witness: a unit enqueued at rate 2 under epoch 1, paused and resumed with
the strategy rate still at its initial value 1, continues at rate 1. -/
theorem resume_overwrites_rate_witness :
    (resume (pause (enqueue initialEngine [] (some 2) (some 1) (some 1)))).current =
      some { playbackRate := 1, currentTime := 0 } := by
  have hc : (pause (enqueue initialEngine [] (some 2) (some 1) (some 1))).current =
      some { playbackRate := 2, currentTime := 0 } := by
    simp only [enqueue, enqueueRebind, enqueueAdd, addKnownDuration, appendUnit,
      reset, stop, playNext, pause, initialEngine, idTruthy]
    norm_num
  have h1 : (pause (enqueue initialEngine [] (some 2) (some 1) (some 1))).playbackRate = 1 := by
    simp only [enqueue, enqueueRebind, enqueueAdd, addKnownDuration, appendUnit,
      reset, stop, playNext, pause, initialEngine, idTruthy]
    norm_num
  exact (resume_overwrites_rate _ _ hc).2 h1

/-! ### Claims about the runSpeak epoch discipline -/

/-- C1 counterexample: a loop on epoch 1 passes the pre-enqueue check (line
641), then — during the suspension inside `await sendToOffscreen`, which
awaits `ensureOffscreen()` before the message is actually sent — a stop or
new speak bumps the epoch to 2; the loop still delivers its enqueue, tagged
with the stale epoch 1.  Hence it is not true that every delivered enqueue
carries the then-current epoch. -/
theorem runSpeak_epoch_counterexample :
    (runSteps
        { requestId := 1,
          loop := some { myId := 1, idx := 0, total := 1, pc := LoopPC.checkFetch } }
        [SysStep.orch, SysStep.orch, SysStep.orch, SysStep.bump, SysStep.orch]).2 =
      [{ tag := 1, currentAtDelivery := 2 }] ∧
    ¬ (∀ (s : OrchState) (steps : List SysStep),
        ∀ ev ∈ (runSteps s steps).2, ev.tag = ev.currentAtDelivery) := by
  refine ⟨by decide, ?_⟩
  intro h
  have := h
    { requestId := 1,
      loop := some { myId := 1, idx := 0, total := 1, pc := LoopPC.checkFetch } }
    [SysStep.orch, SysStep.orch, SysStep.orch, SysStep.bump, SysStep.orch]
    { tag := 1, currentAtDelivery := 2 } (by decide)
  simp at this

lemma safeOrch_step (a : SysStep) (s : OrchState) (h : SafeOrch s) :
    SafeOrch (sysStep a s).1 ∧ (sysStep a s).2 = [] := by
  rcases h with hnone | ⟨l, hl, hlt, hpc⟩
  · cases a with
    | orch =>
      simp only [sysStep, orchStep, hnone]
      exact ⟨Or.inl hnone, by trivial⟩
    | bump => exact ⟨Or.inl hnone, by trivial⟩
    | abortFetch =>
      simp only [sysStep, hnone]
      exact ⟨Or.inl hnone, by trivial⟩
  · cases a with
    | bump =>
      refine ⟨Or.inr ⟨l, hl, ?_, hpc⟩, by trivial⟩
      show l.myId < s.requestId + 1
      omega
    | abortFetch =>
      simp only [sysStep, hl]
      by_cases hf : l.pc = LoopPC.fetching
      · rw [if_pos hf]
        exact ⟨Or.inl rfl, by trivial⟩
      · rw [if_neg hf]
        exact ⟨Or.inr ⟨l, hl, hlt, hpc⟩, by trivial⟩
    | orch =>
      cases hpcv : l.pc with
      | checkFetch =>
        simp only [sysStep, orchStep, hl, hpcv]
        by_cases hterm : l.total ≤ l.idx
        · rw [if_pos hterm]
          exact ⟨Or.inl rfl, by trivial⟩
        · rw [if_neg hterm, if_pos (by omega : l.myId ≠ s.requestId)]
          exact ⟨Or.inl rfl, by trivial⟩
      | fetching =>
        simp only [sysStep, orchStep, hl, hpcv]
        refine ⟨Or.inr ⟨{ l with pc := LoopPC.checkEnqueue }, rfl, hlt, ?_⟩, by trivial⟩
        intro hcontra
        exact LoopPC.noConfusion hcontra
      | checkEnqueue =>
        simp only [sysStep, orchStep, hl, hpcv]
        rw [if_pos (by omega : l.myId ≠ s.requestId)]
        exact ⟨Or.inl rfl, by trivial⟩
      | sending => exact absurd hpcv hpc

lemma runSteps_safe (steps : List SysStep) :
    ∀ s : OrchState, SafeOrch s → (runSteps s steps).2 = [] := by
  induction steps with
  | nil => intro s _; rfl
  | cons a rest ih =>
    intro s h
    have hp := safeOrch_step a s h
    simp only [runSteps]
    rw [hp.2, List.nil_append]
    exact ih _ hp.1

/-- C1 amended: once the loop's epoch is stale (strictly below the current
`state.requestId`) and the loop is not already suspended between its
pre-enqueue check and the actual send, no enqueue is ever delivered again,
under any further interleaving; moreover a loop sitting at the pre-enqueue
check with a stale epoch breaks immediately, delivering nothing.  (Only an
enqueue that passed its line-641 check before the epoch changed can still be
delivered, tagged with the old epoch, as the counterexample shows.) -/
theorem runSpeak_epoch_safety (s : OrchState) (steps : List SysStep)
    (h : SafeOrch s) :
    (runSteps s steps).2 = [] ∧
    (∀ l, s.loop = some l → l.pc = LoopPC.checkEnqueue → l.myId ≠ s.requestId →
      orchStep s = ({ s with loop := none }, [])) := by
  refine ⟨runSteps_safe steps s h, ?_⟩
  intro l hl hpc hne
  simp only [orchStep, hl, hpc]
  rw [if_pos hne]

/-- Witness: a stale loop (epoch 1 against current epoch 2) at the top of an
iteration delivers nothing under a concrete schedule. -/
theorem runSpeak_epoch_safety_witness :
    (runSteps
        { requestId := 2,
          loop := some { myId := 1, idx := 0, total := 3, pc := LoopPC.checkFetch } }
        [SysStep.orch, SysStep.bump, SysStep.orch]).2 = [] :=
  (runSpeak_epoch_safety
    { requestId := 2,
      loop := some { myId := 1, idx := 0, total := 3, pc := LoopPC.checkFetch } }
    [SysStep.orch, SysStep.bump, SysStep.orch]
    (Or.inr ⟨{ myId := 1, idx := 0, total := 3, pc := LoopPC.checkFetch }, rfl,
      by decide, by decide⟩)).1
